import Mathlib

/- Verification of the gwiki front-matter handling.

   Part A embeds the typed page view of src/main.go: the Page structure,
   its accessors (Title/Tags/Date/Draft family) over the generic
   front-matter mapping, and the mark function.

   Part B embeds the front-matter codec (package parser: the splitter,
   the metadata decode and InterfaceToFrontMatter).  That package is not
   part of the sources at hand, so it is modelled from the specification
   (format detection by the first byte, delimiter scanning line by line,
   a string-aware brace scanner for the JSON form, re-encoding with the
   same mark and a trailing line terminator).  File input and output are
   abstracted away: LoadPage receives the raw bytes of the file and Save
   returns the bytes it would write. -/

/-- A calendar date, modelling Go's time.Time at the granularity the
program uses (layout "2006-01-02"). -/
structure GoDate where
  year : Nat
  month : Nat
  day : Nat
deriving DecidableEq

/-- Outcome of the logging a Go accessor performs: no log line, a
WARNING line, or an ERROR line. -/
inductive GoLog where
  | silent
  | warning
  | error
deriving DecidableEq

/-- A dynamically typed front-matter value, modelling the Go interface
values stored in a map[string]interface\x7b\x7d. -/
inductive GoValue where
  | str : String → GoValue
  | bool : Bool → GoValue
  | int : Int → GoValue
  | time : GoDate → GoValue
  | null : GoValue
  | strSlice : List String → GoValue
  | interSlice : List GoValue → GoValue

/-- Models fmt.Sprintf with verb %s applied to one interface element: a
string prints as itself; other values print through Go's verb machinery
(their exact rendering is irrelevant to the program's behaviour, only
that a string prints as itself). -/
def elemFormat : GoValue → String
  | .str s => s
  | .bool b => if b then "%!s(bool=true)" else "%!s(bool=false)"
  | .int n => "%!s(int=" ++ toString n ++ ")"
  | .time _ => "%!s(time.Time)"
  | .null => "%!s(<nil>)"
  | .strSlice _ => "%!s(slice)"
  | .interSlice _ => "%!s(slice)"

/-- Models the sentinel string built with "No_string_slice:%#v" in
Page.Tags when the tags value is no slice at all. -/
def goNoStringSlice (v : GoValue) : String :=
  "No_string_slice:" ++ elemFormat v

/-- Lookup in the front-matter mapping, modelling v, ok := m[key]. -/
def mapGet : List (String × GoValue) → String → Option GoValue
  | [], _ => none
  | (k, v) :: rest, key => if k = key then some v else mapGet rest key

/-- Update of the front-matter mapping, modelling m[key] = v. -/
def mapSet : List (String × GoValue) → String → GoValue → List (String × GoValue)
  | [], key, v => [(key, v)]
  | (k, w) :: rest, key, v =>
    if k = key then (key, v) :: rest else (k, w) :: mapSet rest key v

/-- The white-space test used by strings.Fields (the ASCII fragment of
unicode.IsSpace, which is all the program's inputs exercise). -/
def isGoSpace (c : Char) : Bool :=
  c == ' ' || c == '\t' || c == '\n' || c == '\r' ||
    c == Char.ofNat 11 || c == Char.ofNat 12

/-- Worker for goFields: acc holds the current word reversed. -/
def fieldsAux : List Char → List Char → List String
  | acc, [] => if acc.isEmpty then [] else [String.mk acc.reverse]
  | acc, c :: cs =>
    if isGoSpace c then
      if acc.isEmpty then fieldsAux [] cs
      else String.mk acc.reverse :: fieldsAux [] cs
    else fieldsAux (c :: acc) cs

/-- Models strings.Fields: the maximal runs of non-space characters. -/
def goFields (s : String) : List String :=
  fieldsAux [] s.data

/-- Models strings.EqualFold restricted to ASCII folding (the only
folding that can make a string compare equal to "true"). -/
def goEqualFold (s t : String) : Bool :=
  s.data.map Char.toLower == t.data.map Char.toLower

def pad2 (n : Nat) : String :=
  if n < 10 then "0" ++ toString n else toString n

def pad4 (n : Nat) : String :=
  if n < 10 then "000" ++ toString n
  else if n < 100 then "00" ++ toString n
  else if n < 1000 then "0" ++ toString n
  else toString n

/-- Models t.Format("2006-01-02"). -/
def formatDate (t : GoDate) : String :=
  pad4 t.year ++ "-" ++ pad2 t.month ++ "-" ++ pad2 t.day

def digitVal (c : Char) : Option Nat :=
  if c.isDigit then some (c.toNat - 48) else none

def isLeapYear (y : Nat) : Bool :=
  (y % 4 == 0 && y % 100 != 0) || y % 400 == 0

def daysInMonth (y m : Nat) : Nat :=
  if m == 2 then (if isLeapYear y then 29 else 28)
  else if m == 4 || m == 6 || m == 9 || m == 11 then 30
  else 31

/-- Models time.Parse("2006-01-02", s): exactly ten characters in the
shape YYYY-MM-DD denoting a valid calendar date. -/
def timeParse (s : String) : Option GoDate :=
  match s.data with
  | [y1, y2, y3, y4, s1, m1, m2, s2, d1, d2] =>
    if s1 == '-' && s2 == '-' then
      match digitVal y1, digitVal y2, digitVal y3, digitVal y4,
            digitVal m1, digitVal m2, digitVal d1, digitVal d2 with
      | some a, some b, some c, some d, some e, some f, some g, some h =>
        let y := a * 1000 + b * 100 + c * 10 + d
        let mo := e * 10 + f
        let da := g * 10 + h
        if 1 ≤ mo && mo ≤ 12 && 1 ≤ da && da ≤ daysInMonth y mo then
          some ⟨y, mo, da⟩
        else none
      | _, _, _, _, _, _, _, _ => none
    else none
  | _ => none

/-- The Page structure of src/main.go. -/
structure Page where
  Path : String
  FrontMatter : List (String × GoValue)
  Mark : Char
  Body : List Char

/-- Page.Date from src/main.go: the stored timestamp formatted when
present and well typed; otherwise the current time formatted, with a
WARNING log when the key is absent and an ERROR log when it holds a
non-timestamp value.  The current time is passed in explicitly. -/
def Page.Date (p : Page) (now : GoDate) : String × GoLog :=
  match mapGet p.FrontMatter "date" with
  | some (.time t) => (formatDate t, .silent)
  | some _ => (formatDate now, .error)
  | none => (formatDate now, .warning)

/-- Page.SetDate from src/main.go: parse in layout "2006-01-02"; on
failure only log, leaving the mapping untouched. -/
def Page.SetDate (p : Page) (d : String) : Page :=
  match timeParse d with
  | none => p
  | some t => { p with FrontMatter := mapSet p.FrontMatter "date" (.time t) }

/-- Page.Tags from src/main.go: a native string slice is returned as is;
a generic slice is rendered element-wise with %s; any other value yields
the one-element sentinel slice; an absent key yields nil. -/
def Page.Tags (p : Page) : List String :=
  match mapGet p.FrontMatter "tags" with
  | some (.strSlice s) => s
  | some (.interSlice es) => es.map elemFormat
  | some v => [goNoStringSlice v]
  | none => []

/-- Page.SetTags from src/main.go: split on white space; store a generic
slice when the mark is the plus sign (toInterSlice), a native string
slice otherwise. -/
def Page.SetTags (p : Page) (t : String) : Page :=
  let ts := goFields t
  if p.Mark = '+' then
    { p with FrontMatter := mapSet p.FrontMatter "tags" (.interSlice (ts.map .str)) }
  else
    { p with FrontMatter := mapSet p.FrontMatter "tags" (.strSlice ts) }

/-- Page.Draft from src/main.go: a stored boolean is returned without
logging; a value of any other type and an absent key both yield true
with a WARNING log. -/
def Page.Draft (p : Page) : Bool × GoLog :=
  match mapGet p.FrontMatter "draft" with
  | some (.bool b) => (b, .silent)
  | some _ => (true, .warning)
  | none => (true, .warning)

/-- Page.SetDraft from src/main.go: store the result of the
case-insensitive comparison with "true". -/
def Page.SetDraft (p : Page) (d : String) : Page :=
  { p with FrontMatter := mapSet p.FrontMatter "draft" (.bool (goEqualFold d "true")) }

/- Part B: the front-matter codec, modelled from the spec. -/

/-- The double-quote character (written numerically; it delimits string
scalars in the canonical payload grammar). -/
def qChar : Char := Char.ofNat 34

/-- The backslash character. -/
def bsChar : Char := Char.ofNat 92

/-- The opening curly brace. -/
def braceO : Char := Char.ofNat 123

/-- The closing curly brace. -/
def braceC : Char := Char.ofNat 125

/-- Characters allowed in a Dash/Plus payload key. -/
def isKeyChar (c : Char) : Bool :=
  c.isAlphanum || c == '_'

/-- Modelled from the spec: strip an expected literal piece (a delimiter
line or a key-value separator) from the front of the input. -/
def stripPre : List Char → List Char → Option (List Char)
  | [], cs => some cs
  | _ :: _, [] => none
  | d :: ds, c :: cs => if c = d then stripPre ds cs else none

/-- Split off the first line (line break included) of the input. -/
def takeLine : List Char → List Char × List Char
  | [] => ([], [])
  | c :: cs =>
    if c = '\n' then ([c], cs)
    else (c :: (takeLine cs).1, (takeLine cs).2)

/-- Modelled from the spec: scan forward line by line for a line that is
exactly the closing delimiter; the payload is everything strictly before
it, the content everything after its line terminator.  Fuelled so that
the recursion is structural; the callers hand it enough fuel. -/
def scanCloseF (delim : List Char) : Nat → List Char → Option (List Char × List Char)
  | 0, _ => none
  | n + 1, cs =>
    match stripPre delim cs with
    | some rest => some ([], rest)
    | none =>
      match cs with
      | [] => none
      | c :: cs' =>
        match scanCloseF delim n (takeLine (c :: cs')).2 with
        | some (p, cont) => some ((takeLine (c :: cs')).1 ++ p, cont)
        | none => none

/-- The closing-delimiter scan with the fuel instantiated. -/
def scanClose (delim cs : List Char) : Option (List Char × List Char) :=
  scanCloseF delim (cs.length + 1) cs

/-- Space and tab, the padding the decoders tolerate around tokens. -/
def isSpaceTab (c : Char) : Bool :=
  c == ' ' || c == '\t'

/-- Drop leading space and tab padding. -/
def skipSpaces (cs : List Char) : List Char :=
  cs.dropWhile isSpaceTab

/-- Drop trailing space and tab padding. -/
def trimEnd (seg : List Char) : List Char :=
  (skipSpaces seg.reverse).reverse

/-- Resolve a backslash escape inside a string literal. -/
def unescapeChar (e : Char) : Char :=
  if e = 'n' then '\n' else e

/-- Parse the characters of a quoted string literal up to and including
the closing quote, resolving backslash escapes; a bare line break inside
a literal is a parse error.  Fuelled so the recursion is structural; the
wrapper hands it enough fuel. -/
def parseStrCharsF : Nat → List Char → Option (List Char × List Char)
  | 0, _ => none
  | n + 1, cs =>
    match cs with
    | [] => none
    | c :: cs' =>
      if c = qChar then some ([], cs')
      else if c = bsChar then
        match cs' with
        | [] => none
        | e :: cs'' =>
          match parseStrCharsF n cs'' with
          | some (s, r) => some (unescapeChar e :: s, r)
          | none => none
      else if c = '\n' then none
      else
        match parseStrCharsF n cs' with
        | some (s, r) => some (c :: s, r)
        | none => none

/-- The string-literal body with the fuel instantiated. -/
def parseStrChars (cs : List Char) : Option (List Char × List Char) :=
  parseStrCharsF (cs.length + 1) cs

/-- Numeric value of a run of decimal digits. -/
def digitsToNat (ds : List Char) : Nat :=
  ds.foldl (fun a c => a * 10 + (c.toNat - 48)) 0

/-- Parse an integer literal: an optional minus sign and a non-empty
run of digits. -/
def parseIntLit : List Char → Option (Int × List Char)
  | [] => none
  | c :: cs =>
    if c = '-' then
      match cs with
      | d :: _ =>
        if d.isDigit then
          some (-(digitsToNat (cs.takeWhile Char.isDigit) : Int),
            cs.dropWhile Char.isDigit)
        else none
      | [] => none
    else if c.isDigit then
      some ((digitsToNat ((c :: cs).takeWhile Char.isDigit) : Int),
        (c :: cs).dropWhile Char.isDigit)
    else none

/-- Parse one unbracketed scalar: a boolean or null literal, a quoted
string, or an integer. -/
def parseScalarLit (cs : List Char) : Option (GoValue × List Char) :=
  match stripPre ['t', 'r', 'u', 'e'] cs with
  | some r => some (.bool true, r)
  | none =>
    match stripPre ['f', 'a', 'l', 's', 'e'] cs with
    | some r => some (.bool false, r)
    | none =>
      match stripPre ['n', 'u', 'l', 'l'] cs with
      | some r => some (.null, r)
      | none =>
        match cs with
        | [] => none
        | c :: cs' =>
          if c = qChar then
            match parseStrChars cs' with
            | some (s, r) => some (.str (String.mk s), r)
            | none => none
          else
            match parseIntLit (c :: cs') with
            | some (n, r) => some (.int n, r)
            | none => none

/-- Parse the tail of a bracketed sequence after its first element:
padding, then either the closing bracket or a comma and the next
scalar element. -/
def parseSeqTailF : Nat → List Char → Option (List GoValue × List Char)
  | 0, _ => none
  | n + 1, cs =>
    match skipSpaces cs with
    | [] => none
    | c :: cs' =>
      if c = ']' then some ([], cs')
      else if c = ',' then
        match parseScalarLit (skipSpaces cs') with
        | some (v, r1) =>
          match parseSeqTailF n r1 with
          | some (vs, r2) => some (v :: vs, r2)
          | none => none
        | none => none
      else none

/-- Parse a bracketed sequence of scalar elements after its opening
bracket; the generic decode yields a generic slice.  Nested containers
are outside the modelled fragment. -/
def parseSeqInner (cs : List Char) : Option (List GoValue × List Char) :=
  match skipSpaces cs with
  | [] => none
  | c :: cs' =>
    if c = ']' then some ([], cs')
    else
      match parseScalarLit (c :: cs') with
      | some (v, r1) =>
        match parseSeqTailF (r1.length + 1) r1 with
        | some (vs, r2) => some (v :: vs, r2)
        | none => none
      | none => none

/-- Parse one JSON value for the Brace format: a bracketed sequence or
a scalar.  The Brace format has no native timestamp type, so none is
recognized here. -/
def parseJsonVal (cs : List Char) : Option (GoValue × List Char) :=
  match cs with
  | [] => none
  | c :: cs' =>
    if c = '[' then
      match parseSeqInner cs' with
      | some (vs, r) => some (.interSlice vs, r)
      | none => none
    else parseScalarLit (c :: cs')

/-- Parse a payload key: a non-empty maximal run of key characters. -/
def parseKey (cs : List Char) : Option (List Char × List Char) :=
  match cs with
  | [] => none
  | c :: cs' =>
    if isKeyChar c then some (c :: cs'.takeWhile isKeyChar, cs'.dropWhile isKeyChar)
    else none

/-- Split at the first line break: the segment before it and the rest
after it; a missing line break is a malformed payload. -/
def splitAtNl : List Char → Option (List Char × List Char)
  | [] => none
  | c :: cs =>
    if c = '\n' then some ([], cs)
    else
      match splitAtNl cs with
      | some (seg, r) => some (c :: seg, r)
      | none => none

/-- Interpret one whole line-value segment of a Dash or Plus payload,
already stripped of padding: a native timestamp, a bracketed sequence,
or a scalar, each required to span the whole segment.  When allowPlain
is set (the YAML-like Dash format) any other segment is a plain
unquoted string scalar and an empty segment is null; otherwise (the
TOML-like Plus format, whose values are typed) it is a decode error. -/
def interpretScalar (allowPlain : Bool) (seg : List Char) : Option GoValue :=
  match timeParse (String.mk seg) with
  | some t => some (.time t)
  | none =>
    match seg with
    | [] => if allowPlain then some .null else none
    | c :: cs' =>
      if c = '[' then
        match parseSeqInner cs' with
        | some (vs, r) =>
          if r.isEmpty then some (.interSlice vs)
          else if allowPlain then some (.str (String.mk (c :: cs'))) else none
        | none => if allowPlain then some (.str (String.mk (c :: cs'))) else none
      else
        match parseScalarLit (c :: cs') with
        | some (v, r) =>
          if r.isEmpty then some v
          else if allowPlain then some (.str (String.mk (c :: cs'))) else none
        | none => if allowPlain then some (.str (String.mk (c :: cs'))) else none

/-- Parse a Dash or Plus payload: each line is a key, optional padding,
the separator character, and a value segment running to the line
break. -/
def parseLinesF (sepChar : Char) (allowPlain : Bool) :
    Nat → List Char → Option (List (String × GoValue))
  | 0, _ => none
  | n + 1, cs =>
    if cs.isEmpty then some []
    else
      match parseKey cs with
      | none => none
      | some (k, r1) =>
        match skipSpaces r1 with
        | [] => none
        | c :: r2 =>
          if c = sepChar then
            match splitAtNl r2 with
            | none => none
            | some (seg, r4) =>
              match interpretScalar allowPlain (trimEnd (skipSpaces seg)) with
              | none => none
              | some v =>
                match parseLinesF sepChar allowPlain n r4 with
                | some m => some ((String.mk k, v) :: m)
                | none => none
          else none

/-- The line-payload decoder with the fuel instantiated. -/
def parseLines (sepChar : Char) (allowPlain : Bool) (cs : List Char) :
    Option (List (String × GoValue)) :=
  parseLinesF sepChar allowPlain (cs.length + 1) cs

/-- Parse one brace pair after the opening quote of its key: the key
string, padding, a colon, padding, then the value. -/
def parseBracePair (cs : List Char) : Option ((String × GoValue) × List Char) :=
  match parseStrChars cs with
  | some (k, r1) =>
    match skipSpaces r1 with
    | [] => none
    | c :: r2 =>
      if c = ':' then
        match parseJsonVal (skipSpaces r2) with
        | some (v, r3) => some ((String.mk k, v), r3)
        | none => none
      else none
  | none => none

/-- Parse the tail of a brace object after its first pair. -/
def parseBraceTailF : Nat → List Char → Option (List (String × GoValue) × List Char)
  | 0, _ => none
  | n + 1, cs =>
    match skipSpaces cs with
    | [] => none
    | c :: cs' =>
      if c = braceC then some ([], cs')
      else if c = ',' then
        match skipSpaces cs' with
        | [] => none
        | q :: cs'' =>
          if q = qChar then
            match parseBracePair cs'' with
            | some (p, r1) =>
              match parseBraceTailF n r1 with
              | some (ps, r2) => some (p :: ps, r2)
              | none => none
            | none => none
          else none
      else none

/-- Parse a brace object after its opening brace. -/
def parseBraceInner (cs : List Char) : Option (List (String × GoValue) × List Char) :=
  match skipSpaces cs with
  | [] => none
  | c :: cs' =>
    if c = braceC then some ([], cs')
    else if c = qChar then
      match parseBracePair cs' with
      | some (p, r1) =>
        match parseBraceTailF (r1.length + 1) r1 with
        | some (ps, r2) => some (p :: ps, r2)
        | none => none
      | none => none
    else none

/-- Modelled from the spec: the string-aware scanner-decoder for the
Brace format — one balanced JSON object starting at offset 0, found by
a real tokenizer so that braces inside strings do not end it early. -/
def parseBrace (cs : List Char) : Option (List (String × GoValue) × List Char) :=
  match cs with
  | c :: cs' => if c = braceO then parseBraceInner cs' else none
  | [] => none

/-- Escape one character for a quoted string literal. -/
def escChar (c : Char) : List Char :=
  if c = qChar then [bsChar, qChar]
  else if c = bsChar then [bsChar, bsChar]
  else if c = '\n' then [bsChar, 'n']
  else [c]

/-- A quoted, escaped string scalar. -/
def quoteStr (s : String) : List Char :=
  qChar :: (s.data.map escChar).flatten ++ [qChar]

/-- Modelled from the spec: encode one scalar value in the format named
by the mark.  Numbers, booleans and null are native in every format;
timestamps are native only in the Plus format and use the canonical
string rendering elsewhere; a slice nested where a scalar is expected
(unrepresentable) falls back to its string rendering. -/
def encodeScalar (mrk : Char) : GoValue → List Char
  | .str s => quoteStr s
  | .bool true => ['t', 'r', 'u', 'e']
  | .bool false => ['f', 'a', 'l', 's', 'e']
  | .null => ['n', 'u', 'l', 'l']
  | .int n => (toString n).data
  | .time t => if mrk = '+' then (formatDate t).data else quoteStr (formatDate t)
  | .strSlice _ => quoteStr "%!s(slice)"
  | .interSlice _ => quoteStr "%!s(slice)"

/-- Encode the tail of a sequence (after its first element). -/
def encodeSeqTail (mrk : Char) : List GoValue → List Char
  | [] => [']']
  | v :: vs => ',' :: ' ' :: encodeScalar mrk v ++ encodeSeqTail mrk vs

/-- Encode a sequence after its opening bracket. -/
def encodeSeqInner (mrk : Char) : List GoValue → List Char
  | [] => [']']
  | v :: vs => encodeScalar mrk v ++ encodeSeqTail mrk vs

/-- Modelled from the spec: encode one value.  A sequence whose elements
are strings encodes identically whether it is a native string slice or
a generic slice (the sequence-of-strings symmetry). -/
def encodeVal (mrk : Char) (v : GoValue) : List Char :=
  match v with
  | .strSlice ss => '[' :: encodeSeqInner mrk (ss.map .str)
  | .interSlice es => '[' :: encodeSeqInner mrk es
  | v => encodeScalar mrk v

/-- Encode a Dash or Plus payload as canonical key-separator-value
lines. -/
def encodeLines (mrk : Char) (sep : List Char) : List (String × GoValue) → List Char
  | [] => []
  | (k, v) :: m => k.data ++ sep ++ encodeVal mrk v ++ '\n' :: encodeLines mrk sep m

/-- Encode one brace pair. -/
def encodePair (p : String × GoValue) : List Char :=
  quoteStr p.1 ++ ':' :: ' ' :: encodeVal braceO p.2

/-- Encode the tail of a brace object after its first pair. -/
def encodeBraceTail : List (String × GoValue) → List Char
  | [] => [braceC]
  | p :: ps => ',' :: ' ' :: encodePair p ++ encodeBraceTail ps

/-- Encode a brace object after its opening brace. -/
def encodeBraceInner : List (String × GoValue) → List Char
  | [] => [braceC]
  | p :: ps => encodePair p ++ encodeBraceTail ps

/-- Encode a whole brace object. -/
def encodeBraceObj (m : List (String × GoValue)) : List Char :=
  braceO :: encodeBraceInner m

/-- The Dash delimiter line. -/
def dashDelim : List Char := ['-', '-', '-', '\n']

/-- The Plus delimiter line. -/
def plusDelim : List Char := ['+', '+', '+', '\n']

/-- The Dash key-value separator. -/
def sepDash : List Char := [':', ' ']

/-- The Plus key-value separator. -/
def sepPlus : List Char := [' ', '=', ' ']

/-- Fatal outcomes of a decode: an opening delimiter with no matching
close, or a malformed metadata payload. -/
inductive LoadErr where
  | unterminated
  | decodeErr
deriving DecidableEq

/-- The splitter-decoder result: the raw front-matter bytes (delimiters
included), the decoded mapping (none when the document has no front
matter at all, mirroring the nil interface the Go parser returns), and
the verbatim content bytes. -/
structure ParsedDoc where
  fm : List Char
  meta : Option (List (String × GoValue))
  content : List Char

/-- Modelled from the spec: LoadDocument — detect the format from the
first byte, find the closing delimiter (line scan for Dash and Plus, a
string-aware object scan for Brace), decode the payload, and keep the
content verbatim.  Any other first byte, or an empty input, is the
recoverable no-front-matter case: no metadata, content is the whole
input.  A missing closing delimiter is fatal. -/
def loadDocument (raw : List Char) : Except LoadErr ParsedDoc :=
  match stripPre dashDelim raw with
  | some afterOpen =>
    match scanClose dashDelim afterOpen with
    | some (payload, content) =>
      match parseLines ':' true payload with
      | some m => .ok ⟨dashDelim ++ payload ++ dashDelim, some m, content⟩
      | none => .error .decodeErr
    | none => .error .unterminated
  | none =>
    match stripPre plusDelim raw with
    | some afterOpen =>
      match scanClose plusDelim afterOpen with
      | some (payload, content) =>
        match parseLines '=' false payload with
        | some m => .ok ⟨plusDelim ++ payload ++ plusDelim, some m, content⟩
        | none => .error .decodeErr
      | none => .error .unterminated
    | none =>
      match raw with
      | [] => .ok ⟨[], none, []⟩
      | c :: _ =>
        if c = braceO then
          match parseBrace raw with
          | some (m, rest) =>
            match rest with
            | c2 :: content =>
              if c2 = '\n' then
                .ok ⟨raw.take (raw.length - content.length), some m, content⟩
              else .ok ⟨raw.take (raw.length - rest.length), some m, rest⟩
            | [] => .ok ⟨raw.take (raw.length - rest.length), some m, rest⟩
          | none => .error .unterminated
        else .ok ⟨[], none, raw⟩

/-- The mark function of src/main.go: the first byte of the raw front
matter, defaulting to the plus sign when there is none. -/
def mark (fm : List Char) : Char :=
  match fm with
  | c :: _ => c
  | [] => '+'

/-- Modelled from the spec: InterfaceToFrontMatter — re-encode a mapping
in the format named by the mark, delimiters included, always ending in a
line terminator; an unknown mark is an error. -/
def InterfaceToFrontMatter (m : List (String × GoValue)) (mrk : Char) : Option (List Char) :=
  if mrk = '-' then some (dashDelim ++ encodeLines '-' sepDash m ++ dashDelim)
  else if mrk = '+' then some (plusDelim ++ encodeLines '+' sepPlus m ++ plusDelim)
  else if mrk = braceO then some (encodeBraceObj m ++ ['\n'])
  else none

/-- LoadPage from src/main.go, with the file read abstracted to the raw
bytes: split and decode, fail on any decode error, fail also when the
metadata is nil (the explicit no-frontmatter check of main.go), else
build the Page with the mark taken from the first front-matter byte and
the body as the verbatim content. -/
def LoadPage (path : String) (raw : List Char) : Option Page :=
  match loadDocument raw with
  | .error _ => none
  | .ok pg =>
    match pg.meta with
    | none => none
    | some m => some ⟨path, m, mark pg.fm, pg.content⟩

/-- Save from src/main.go, with the file write abstracted to the bytes
written: the re-encoded front matter followed by the body, failing only
when the front matter cannot be generated. -/
def Save (p : Page) : Option (List Char) :=
  match InterfaceToFrontMatter p.FrontMatter p.Mark with
  | some fmBytes => some (fmBytes ++ p.Body)
  | none => none

/- Helper lemmas on the mapping. -/

theorem mapGet_mapSet_same (m : List (String × GoValue)) (k : String) (v : GoValue) :
    mapGet (mapSet m k v) k = some v := by
  induction m with
  | nil => simp [mapSet, mapGet]
  | cons hd tl ih =>
    obtain ⟨k0, w⟩ := hd
    by_cases h : k0 = k
    · simp [mapSet, h, mapGet]
    · simp [mapSet, h, mapGet, ih]

theorem mapGet_mapSet_ne (m : List (String × GoValue)) (k k' : String) (v : GoValue)
    (h : k' ≠ k) : mapGet (mapSet m k v) k' = mapGet m k' := by
  have hks : ¬(k = k') := fun hh => h hh.symm
  induction m with
  | nil => simp [mapSet, mapGet, hks]
  | cons hd tl ih =>
    obtain ⟨k0, w⟩ := hd
    by_cases h0 : k0 = k
    · subst h0
      simp [mapSet, mapGet, hks]
    · simp [mapSet, h0, mapGet, ih]

theorem elemFormat_str (l : List String) : (l.map GoValue.str).map elemFormat = l := by
  induction l with
  | nil => rfl
  | cons s tl ih => simp [elemFormat, ih]

theorem elemFormat_comp_str (l : List String) : l.map (elemFormat ∘ GoValue.str) = l := by
  rw [← List.map_map]
  exact elemFormat_str l

/- Claims about the typed view. -/

/-- C3: a tags value that is a native string slice and one that is a
generic slice of the same string scalars yield the same ordered sequence
from the Tags accessor; an absent key yields the empty sequence. -/
theorem tags_sequence_symmetry (p : Page) (l : List String) :
    (mapGet p.FrontMatter "tags" = some (.strSlice l) → p.Tags = l) ∧
    (mapGet p.FrontMatter "tags" = some (.interSlice (l.map .str)) → p.Tags = l) ∧
    (mapGet p.FrontMatter "tags" = none → p.Tags = []) := by
  refine ⟨fun h => ?_, fun h => ?_, fun h => ?_⟩
  · simp [Page.Tags, h]
  · simp [Page.Tags, h, elemFormat_comp_str]
  · simp [Page.Tags, h]

theorem tags_sequence_symmetry_witness :
    Page.Tags ⟨"p", [("tags", .strSlice ["a", "b"])], '+', []⟩ = ["a", "b"] ∧
    Page.Tags ⟨"p", [("tags", .interSlice [.str "a", .str "b"])], braceO, []⟩ = ["a", "b"] ∧
    Page.Tags ⟨"p", [("title", .str "t")], '-', []⟩ = [] :=
  ⟨(tags_sequence_symmetry _ ["a", "b"]).1 rfl,
   (tags_sequence_symmetry _ ["a", "b"]).2.1 rfl,
   (tags_sequence_symmetry ⟨"p", [("title", .str "t")], '-', []⟩ []).2.2 rfl⟩

/-- C4: a draft value of any non-boolean type, and an absent draft key,
both make the Draft accessor return true with only a WARNING log; the
malformation never fails the accessor. -/
theorem draft_malformed_tolerance (p : Page) :
    (∀ v, mapGet p.FrontMatter "draft" = some v → (∀ b, v ≠ GoValue.bool b) →
      p.Draft = (true, .warning)) ∧
    (mapGet p.FrontMatter "draft" = none → p.Draft = (true, .warning)) := by
  constructor
  · intro v h hv
    cases v with
    | bool b => exact absurd rfl (hv b)
    | str s => simp [Page.Draft, h]
    | int n => simp [Page.Draft, h]
    | time t => simp [Page.Draft, h]
    | null => simp [Page.Draft, h]
    | strSlice s => simp [Page.Draft, h]
    | interSlice s => simp [Page.Draft, h]
  · intro h
    simp [Page.Draft, h]

theorem draft_malformed_tolerance_witness :
    Page.Draft ⟨"p", [("draft", .str "maybe")], '-', []⟩ = (true, .warning) ∧
    Page.Draft ⟨"p", [], '-', []⟩ = (true, .warning) :=
  ⟨(draft_malformed_tolerance _).1 (.str "maybe") rfl (fun _ h => nomatch h),
   (draft_malformed_tolerance _).2 rfl⟩

/-- C5: the Date accessor formats the stored timestamp when one is
present, and formats the current time otherwise — with a WARNING log
when the key is absent and an ERROR log when it holds a non-timestamp
value; it returns in every case. -/
theorem date_accessor_spec (p : Page) (now : GoDate) :
    (∀ t, mapGet p.FrontMatter "date" = some (.time t) →
      p.Date now = (formatDate t, .silent)) ∧
    (mapGet p.FrontMatter "date" = none →
      p.Date now = (formatDate now, .warning)) ∧
    (∀ v, mapGet p.FrontMatter "date" = some v → (∀ t, v ≠ GoValue.time t) →
      p.Date now = (formatDate now, .error)) := by
  refine ⟨fun t h => ?_, fun h => ?_, fun v h hv => ?_⟩
  · simp [Page.Date, h]
  · simp [Page.Date, h]
  · cases v with
    | time t => exact absurd rfl (hv t)
    | str s => simp [Page.Date, h]
    | bool b => simp [Page.Date, h]
    | int n => simp [Page.Date, h]
    | null => simp [Page.Date, h]
    | strSlice s => simp [Page.Date, h]
    | interSlice s => simp [Page.Date, h]

theorem date_accessor_spec_witness :
    Page.Date ⟨"p", [("date", .time ⟨2024, 12, 1⟩)], '-', []⟩ ⟨2025, 3, 4⟩ =
      (formatDate ⟨2024, 12, 1⟩, .silent) ∧
    Page.Date ⟨"p", [], '-', []⟩ ⟨2025, 3, 4⟩ = (formatDate ⟨2025, 3, 4⟩, .warning) ∧
    Page.Date ⟨"p", [("date", .str "tomorrow")], '-', []⟩ ⟨2025, 3, 4⟩ =
      (formatDate ⟨2025, 3, 4⟩, .error) :=
  ⟨(date_accessor_spec _ _).1 ⟨2024, 12, 1⟩ rfl,
   (date_accessor_spec _ _).2.1 rfl,
   (date_accessor_spec _ _).2.2 (.str "tomorrow") rfl (fun _ h => nomatch h)⟩

/-- C8: after SetDraft d, the Draft accessor returns true exactly when d
equals "true" case-insensitively, with no log line at all. -/
theorem setDraft_draft_iff (p : Page) (d : String) :
    ((p.SetDraft d).Draft.1 = true ↔ goEqualFold d "true" = true) ∧
    (p.SetDraft d).Draft.2 = GoLog.silent := by
  have h := mapGet_mapSet_same p.FrontMatter "draft" (.bool (goEqualFold d "true"))
  constructor
  · simp [Page.SetDraft, Page.Draft, h]
  · simp [Page.SetDraft, Page.Draft, h]

/-- C9: SetDate is atomic on error — an unparsable input leaves the
whole mapping untouched, and a parsable one changes exactly the date
key. -/
theorem setDate_atomicity (p : Page) (d : String) :
    (timeParse d = none → (p.SetDate d).FrontMatter = p.FrontMatter) ∧
    (∀ t, timeParse d = some t →
      mapGet (p.SetDate d).FrontMatter "date" = some (.time t) ∧
      ∀ k, k ≠ "date" → mapGet (p.SetDate d).FrontMatter k = mapGet p.FrontMatter k) := by
  constructor
  · intro h
    simp [Page.SetDate, h]
  · intro t ht
    refine ⟨?_, fun k hk => ?_⟩
    · simp [Page.SetDate, ht, mapGet_mapSet_same]
    · simp [Page.SetDate, ht, mapGet_mapSet_ne _ _ _ _ hk]

theorem setDate_atomicity_witness :
    (Page.SetDate ⟨"p", [("date", .str "x")], '-', []⟩ "2023-02-29").FrontMatter =
      [("date", .str "x")] ∧
    mapGet (Page.SetDate ⟨"p", [("title", .str "t")], '-', []⟩ "2024-02-29").FrontMatter
      "date" = some (.time ⟨2024, 2, 29⟩) :=
  ⟨(setDate_atomicity _ "2023-02-29").1 rfl,
   ((setDate_atomicity _ "2024-02-29").2 ⟨2024, 2, 29⟩ rfl).1⟩

/-- C10: for any page and any input, SetTags followed by Tags yields
exactly the white-space separated fields of the input, whichever slice
representation the mark made SetTags store. -/
theorem setTags_tags_roundtrip (p : Page) (t : String) :
    (p.SetTags t).Tags = goFields t := by
  by_cases h : p.Mark = '+'
  · simp [Page.SetTags, h, Page.Tags, mapGet_mapSet_same, elemFormat_comp_str]
  · simp [Page.SetTags, h, Page.Tags, mapGet_mapSet_same]

/- Structural soundness of the splitter: the delimiter scans split the
input exactly, and every parser returns a suffix of its input, so the
front-matter byte range is always an exact prefix of the document. -/

theorem stripPre_sound (ds : List Char) :
    ∀ cs r, stripPre ds cs = some r → cs = ds ++ r := by
  induction ds with
  | nil =>
    intro cs r h
    simp [stripPre] at h
    simp [h]
  | cons d ds ih =>
    intro cs r h
    cases cs with
    | nil => simp [stripPre] at h
    | cons c cs' =>
      simp only [stripPre] at h
      by_cases hc : c = d
      · rw [if_pos hc] at h
        subst hc
        rw [ih cs' r h]
        rfl
      · rw [if_neg hc] at h
        exact absurd h (by simp)

theorem takeLine_append : ∀ cs : List Char, (takeLine cs).1 ++ (takeLine cs).2 = cs := by
  intro cs
  induction cs with
  | nil => rfl
  | cons c cs ih =>
    simp only [takeLine]
    by_cases hc : c = '\n'
    · simp [hc]
    · simp only [if_neg hc]
      simpa using ih

theorem scanCloseF_sound (delim : List Char) :
    ∀ n cs p cont, scanCloseF delim n cs = some (p, cont) → cs = p ++ delim ++ cont := by
  intro n
  induction n with
  | zero =>
    intro cs p cont h
    simp [scanCloseF] at h
  | succ n ih =>
    intro cs p cont h
    simp only [scanCloseF] at h
    cases hs : stripPre delim cs with
    | some rest =>
      rw [hs] at h
      simp only [Option.some.injEq, Prod.mk.injEq] at h
      obtain ⟨h1, h2⟩ := h
      subst h1 h2
      simpa using stripPre_sound delim cs _ hs
    | none =>
      rw [hs] at h
      cases cs with
      | nil => simp at h
      | cons c cs' =>
        cases hrec : scanCloseF delim n (takeLine (c :: cs')).2 with
        | none => simp [hrec] at h
        | some pc =>
          obtain ⟨p', cont'⟩ := pc
          simp only [hrec, Option.some.injEq, Prod.mk.injEq] at h
          obtain ⟨h1, h2⟩ := h
          subst h1 h2
          have hr := ih _ _ _ hrec
          calc c :: cs'
              = (takeLine (c :: cs')).1 ++ (takeLine (c :: cs')).2 :=
                (takeLine_append _).symm
            _ = (takeLine (c :: cs')).1 ++ (p' ++ delim ++ cont') := by rw [hr]
            _ = (takeLine (c :: cs')).1 ++ p' ++ delim ++ cont' := by
                simp [List.append_assoc]

theorem skipSpaces_suffix (cs : List Char) : skipSpaces cs <:+ cs :=
  ⟨cs.takeWhile isSpaceTab, List.takeWhile_append_dropWhile isSpaceTab cs⟩

theorem parseStrCharsF_suffix :
    ∀ n cs s r, parseStrCharsF n cs = some (s, r) → r <:+ cs := by
  intro n
  induction n with
  | zero => intro cs s r h; simp [parseStrCharsF] at h
  | succ n ih =>
    intro cs s r h
    cases cs with
    | nil => simp [parseStrCharsF] at h
    | cons c cs' =>
      simp only [parseStrCharsF] at h
      by_cases hq : c = qChar
      · rw [if_pos hq] at h
        simp only [Option.some.injEq, Prod.mk.injEq] at h
        obtain ⟨h1, h2⟩ := h
        subst h1 h2
        exact List.suffix_cons c cs'
      · rw [if_neg hq] at h
        by_cases hb : c = bsChar
        · rw [if_pos hb] at h
          cases cs' with
          | nil => simp at h
          | cons e cs'' =>
            simp only [] at h
            cases hrec : parseStrCharsF n cs'' with
            | none => simp [hrec] at h
            | some sr =>
              obtain ⟨s', r'⟩ := sr
              simp only [hrec, Option.some.injEq, Prod.mk.injEq] at h
              obtain ⟨h1, h2⟩ := h
              subst h1 h2
              exact ((ih _ _ _ hrec).trans (List.suffix_cons e cs'')).trans
                (List.suffix_cons c (e :: cs''))
        · rw [if_neg hb] at h
          by_cases hn : c = '\n'
          · rw [if_pos hn] at h
            simp at h
          · rw [if_neg hn] at h
            cases hrec : parseStrCharsF n cs' with
            | none => simp [hrec] at h
            | some sr =>
              obtain ⟨s', r'⟩ := sr
              simp only [hrec, Option.some.injEq, Prod.mk.injEq] at h
              obtain ⟨h1, h2⟩ := h
              subst h1 h2
              exact (ih _ _ _ hrec).trans (List.suffix_cons c cs')

theorem parseStrChars_suffix (cs s r : List Char)
    (h : parseStrChars cs = some (s, r)) : r <:+ cs :=
  parseStrCharsF_suffix _ _ _ _ h

theorem parseIntLit_suffix :
    ∀ cs n r, parseIntLit cs = some (n, r) → r <:+ cs := by
  intro cs n r h
  cases cs with
  | nil => simp [parseIntLit] at h
  | cons c cs' =>
    simp only [parseIntLit] at h
    by_cases hm : c = '-'
    · rw [if_pos hm] at h
      cases cs' with
      | nil => simp at h
      | cons d cs'' =>
        simp only [] at h
        by_cases hd : d.isDigit = true
        · rw [if_pos hd] at h
          simp only [Option.some.injEq, Prod.mk.injEq] at h
          obtain ⟨h1, h2⟩ := h
          subst h1 h2
          have hsfx : (d :: cs'').dropWhile Char.isDigit <:+ d :: cs'' :=
            ⟨(d :: cs'').takeWhile Char.isDigit,
              List.takeWhile_append_dropWhile Char.isDigit (d :: cs'')⟩
          exact hsfx.trans (List.suffix_cons c (d :: cs''))
        · rw [if_neg hd] at h
          simp at h
    · rw [if_neg hm] at h
      by_cases hd : c.isDigit = true
      · rw [if_pos hd] at h
        simp only [Option.some.injEq, Prod.mk.injEq] at h
        obtain ⟨h1, h2⟩ := h
        subst h1 h2
        exact ⟨(c :: cs').takeWhile Char.isDigit,
          List.takeWhile_append_dropWhile Char.isDigit (c :: cs')⟩
      · rw [if_neg hd] at h
        simp at h

theorem parseScalarLit_suffix :
    ∀ cs v r, parseScalarLit cs = some (v, r) → r <:+ cs := by
  intro cs v r h
  simp only [parseScalarLit] at h
  cases ht : stripPre ['t', 'r', 'u', 'e'] cs with
  | some r0 =>
    simp only [ht, Option.some.injEq, Prod.mk.injEq] at h
    obtain ⟨h1, h2⟩ := h
    subst h1 h2
    exact ⟨_, (stripPre_sound _ _ _ ht).symm⟩
  | none =>
    simp only [ht] at h
    cases hf : stripPre ['f', 'a', 'l', 's', 'e'] cs with
    | some r0 =>
      simp only [hf, Option.some.injEq, Prod.mk.injEq] at h
      obtain ⟨h1, h2⟩ := h
      subst h1 h2
      exact ⟨_, (stripPre_sound _ _ _ hf).symm⟩
    | none =>
      simp only [hf] at h
      cases hn : stripPre ['n', 'u', 'l', 'l'] cs with
      | some r0 =>
        simp only [hn, Option.some.injEq, Prod.mk.injEq] at h
        obtain ⟨h1, h2⟩ := h
        subst h1 h2
        exact ⟨_, (stripPre_sound _ _ _ hn).symm⟩
      | none =>
        simp only [hn] at h
        cases cs with
        | nil => simp at h
        | cons c cs' =>
          simp only [] at h
          by_cases hq : c = qChar
          · rw [if_pos hq] at h
            cases hstr : parseStrChars cs' with
            | none => simp [hstr] at h
            | some sr =>
              obtain ⟨s', r'⟩ := sr
              simp only [hstr, Option.some.injEq, Prod.mk.injEq] at h
              obtain ⟨h1, h2⟩ := h
              subst h1 h2
              exact (parseStrChars_suffix _ _ _ hstr).trans (List.suffix_cons c cs')
          · rw [if_neg hq] at h
            cases hint : parseIntLit (c :: cs') with
            | none => simp [hint] at h
            | some nr =>
              obtain ⟨n', r'⟩ := nr
              simp only [hint, Option.some.injEq, Prod.mk.injEq] at h
              obtain ⟨h1, h2⟩ := h
              subst h1 h2
              exact parseIntLit_suffix _ _ _ hint

theorem parseSeqTailF_suffix :
    ∀ n cs vs r, parseSeqTailF n cs = some (vs, r) → r <:+ cs := by
  intro n
  induction n with
  | zero => intro cs vs r h; simp [parseSeqTailF] at h
  | succ n ih =>
    intro cs vs r h
    simp only [parseSeqTailF] at h
    cases hss : skipSpaces cs with
    | nil => simp [hss] at h
    | cons c cs' =>
      simp only [hss] at h
      have hcs : c :: cs' <:+ cs := hss ▸ skipSpaces_suffix cs
      have hcs' : cs' <:+ cs := (List.suffix_cons c cs').trans hcs
      by_cases hc : c = ']'
      · rw [if_pos hc] at h
        simp only [Option.some.injEq, Prod.mk.injEq] at h
        obtain ⟨h1, h2⟩ := h
        subst h1 h2
        exact hcs'
      · rw [if_neg hc] at h
        by_cases hcm : c = ','
        · rw [if_pos hcm] at h
          cases hsl : parseScalarLit (skipSpaces cs') with
          | none => simp [hsl] at h
          | some vr =>
            obtain ⟨v', r1⟩ := vr
            simp only [hsl] at h
            cases hrec : parseSeqTailF n r1 with
            | none => simp [hrec] at h
            | some vsr =>
              obtain ⟨vs', r2⟩ := vsr
              simp only [hrec, Option.some.injEq, Prod.mk.injEq] at h
              obtain ⟨h1, h2⟩ := h
              subst h1 h2
              exact (((ih _ _ _ hrec).trans
                (parseScalarLit_suffix _ _ _ hsl)).trans
                (skipSpaces_suffix cs')).trans hcs'
        · rw [if_neg hcm] at h
          simp at h

theorem parseSeqInner_suffix :
    ∀ cs vs r, parseSeqInner cs = some (vs, r) → r <:+ cs := by
  intro cs vs r h
  simp only [parseSeqInner] at h
  cases hss : skipSpaces cs with
  | nil => simp [hss] at h
  | cons c cs' =>
    simp only [hss] at h
    have hcs : c :: cs' <:+ cs := hss ▸ skipSpaces_suffix cs
    have hcs' : cs' <:+ cs := (List.suffix_cons c cs').trans hcs
    by_cases hc : c = ']'
    · rw [if_pos hc] at h
      simp only [Option.some.injEq, Prod.mk.injEq] at h
      obtain ⟨h1, h2⟩ := h
      subst h1 h2
      exact hcs'
    · rw [if_neg hc] at h
      cases hsl : parseScalarLit (c :: cs') with
      | none => simp [hsl] at h
      | some vr =>
        obtain ⟨v', r1⟩ := vr
        simp only [hsl] at h
        cases hrec : parseSeqTailF (r1.length + 1) r1 with
        | none => simp [hrec] at h
        | some vsr =>
          obtain ⟨vs', r2⟩ := vsr
          simp only [hrec, Option.some.injEq, Prod.mk.injEq] at h
          obtain ⟨h1, h2⟩ := h
          subst h1 h2
          exact ((parseSeqTailF_suffix _ _ _ _ hrec).trans
            (parseScalarLit_suffix _ _ _ hsl)).trans hcs

theorem parseJsonVal_suffix :
    ∀ cs v r, parseJsonVal cs = some (v, r) → r <:+ cs := by
  intro cs v r h
  cases cs with
  | nil => simp [parseJsonVal] at h
  | cons c cs' =>
    simp only [parseJsonVal] at h
    by_cases hb : c = '['
    · rw [if_pos hb] at h
      cases hsi : parseSeqInner cs' with
      | none => simp [hsi] at h
      | some vr =>
        obtain ⟨vs', r'⟩ := vr
        simp only [hsi, Option.some.injEq, Prod.mk.injEq] at h
        obtain ⟨h1, h2⟩ := h
        subst h1 h2
        exact (parseSeqInner_suffix _ _ _ hsi).trans (List.suffix_cons c cs')
    · rw [if_neg hb] at h
      exact parseScalarLit_suffix _ _ _ h

theorem parseBracePair_suffix :
    ∀ cs p r, parseBracePair cs = some (p, r) → r <:+ cs := by
  intro cs p r h
  simp only [parseBracePair] at h
  cases hstr : parseStrChars cs with
  | none => simp [hstr] at h
  | some kr =>
    obtain ⟨k, r1⟩ := kr
    simp only [hstr] at h
    cases hss : skipSpaces r1 with
    | nil => simp [hss] at h
    | cons c r2 =>
      simp only [hss] at h
      have hr1 : c :: r2 <:+ r1 := hss ▸ skipSpaces_suffix r1
      have hr2 : r2 <:+ r1 := (List.suffix_cons c r2).trans hr1
      by_cases hc : c = ':'
      · rw [if_pos hc] at h
        cases hjv : parseJsonVal (skipSpaces r2) with
        | none => simp [hjv] at h
        | some vr =>
          obtain ⟨v', r3⟩ := vr
          simp only [hjv, Option.some.injEq, Prod.mk.injEq] at h
          obtain ⟨h1, h2⟩ := h
          subst h1 h2
          exact ((((parseJsonVal_suffix _ _ _ hjv).trans
            (skipSpaces_suffix r2)).trans hr2).trans
            (parseStrChars_suffix _ _ _ hstr))
      · rw [if_neg hc] at h
        simp at h

theorem parseBraceTailF_suffix :
    ∀ n cs ps r, parseBraceTailF n cs = some (ps, r) → r <:+ cs := by
  intro n
  induction n with
  | zero => intro cs ps r h; simp [parseBraceTailF] at h
  | succ n ih =>
    intro cs ps r h
    simp only [parseBraceTailF] at h
    cases hss : skipSpaces cs with
    | nil => simp [hss] at h
    | cons c cs' =>
      simp only [hss] at h
      have hcs : c :: cs' <:+ cs := hss ▸ skipSpaces_suffix cs
      have hcs' : cs' <:+ cs := (List.suffix_cons c cs').trans hcs
      by_cases hc : c = braceC
      · rw [if_pos hc] at h
        simp only [Option.some.injEq, Prod.mk.injEq] at h
        obtain ⟨h1, h2⟩ := h
        subst h1 h2
        exact hcs'
      · rw [if_neg hc] at h
        by_cases hcm : c = ','
        · rw [if_pos hcm] at h
          cases hss2 : skipSpaces cs' with
          | nil => simp [hss2] at h
          | cons q cs'' =>
            simp only [hss2] at h
            have hq2 : q :: cs'' <:+ cs' := hss2 ▸ skipSpaces_suffix cs'
            have hcs'' : cs'' <:+ cs' := (List.suffix_cons q cs'').trans hq2
            by_cases hq : q = qChar
            · rw [if_pos hq] at h
              cases hpp : parseBracePair cs'' with
              | none => simp [hpp] at h
              | some pr =>
                obtain ⟨p', r1⟩ := pr
                simp only [hpp] at h
                cases hrec : parseBraceTailF n r1 with
                | none => simp [hrec] at h
                | some psr =>
                  obtain ⟨ps', r2⟩ := psr
                  simp only [hrec, Option.some.injEq, Prod.mk.injEq] at h
                  obtain ⟨h1, h2⟩ := h
                  subst h1 h2
                  exact (((ih _ _ _ hrec).trans
                    (parseBracePair_suffix _ _ _ hpp)).trans hcs'').trans hcs'
            · rw [if_neg hq] at h
              simp at h
        · rw [if_neg hcm] at h
          simp at h

theorem parseBraceInner_suffix :
    ∀ cs m r, parseBraceInner cs = some (m, r) → r <:+ cs := by
  intro cs m r h
  simp only [parseBraceInner] at h
  cases hss : skipSpaces cs with
  | nil => simp [hss] at h
  | cons c cs' =>
    simp only [hss] at h
    have hcs : c :: cs' <:+ cs := hss ▸ skipSpaces_suffix cs
    have hcs' : cs' <:+ cs := (List.suffix_cons c cs').trans hcs
    by_cases hc : c = braceC
    · rw [if_pos hc] at h
      simp only [Option.some.injEq, Prod.mk.injEq] at h
      obtain ⟨h1, h2⟩ := h
      subst h1 h2
      exact hcs'
    · rw [if_neg hc] at h
      by_cases hq : c = qChar
      · rw [if_pos hq] at h
        cases hpp : parseBracePair cs' with
        | none => simp [hpp] at h
        | some pr =>
          obtain ⟨p', r1⟩ := pr
          simp only [hpp] at h
          cases hrec : parseBraceTailF (r1.length + 1) r1 with
          | none => simp [hrec] at h
          | some psr =>
            obtain ⟨ps', r2⟩ := psr
            simp only [hrec, Option.some.injEq, Prod.mk.injEq] at h
            obtain ⟨h1, h2⟩ := h
            subst h1 h2
            exact ((parseBraceTailF_suffix _ _ _ _ hrec).trans
              (parseBracePair_suffix _ _ _ hpp)).trans hcs'
      · rw [if_neg hq] at h
        simp at h

/-- Every successful brace scan decomposes the input into an object
byte range beginning with the opening brace, followed by the rest. -/
theorem parseBrace_split :
    ∀ cs m rest, parseBrace cs = some (m, rest) →
      ∃ pre, cs = braceO :: (pre ++ rest) := by
  intro cs m rest h
  cases cs with
  | nil => simp [parseBrace] at h
  | cons c cs' =>
    simp only [parseBrace] at h
    by_cases hc : c = braceO
    · rw [if_pos hc] at h
      obtain ⟨pre, hpre⟩ := parseBraceInner_suffix _ _ _ h
      subst hc
      exact ⟨pre, by rw [hpre]⟩
    · rw [if_neg hc] at h
      simp at h

theorem take_append_sub (l1 l2 : List Char) :
    (l1 ++ l2).take ((l1 ++ l2).length - l2.length) = l1 := by
  have h : (l1 ++ l2).length - l2.length = l1.length := by simp
  rw [h]
  exact List.take_left l1 l2

/-- Structure of every successful loadDocument result: the raw bytes
are exactly the front-matter bytes followed by the verbatim content
(whatever the payload decoded to), and whenever a mapping was decoded,
re-encoding it with the mark read off the front matter succeeds. -/
theorem loadDocument_ok_split (raw : List Char) (pg : ParsedDoc)
    (h : loadDocument raw = .ok pg) :
    raw = pg.fm ++ pg.content ∧
    ∀ m, pg.meta = some m →
      ∃ enc, InterfaceToFrontMatter m (mark pg.fm) = some enc := by
  simp only [loadDocument] at h
  cases hd : stripPre dashDelim raw with
  | some afterOpen =>
    simp only [hd] at h
    cases hsc : scanClose dashDelim afterOpen with
    | none => simp [hsc] at h
    | some pc =>
      obtain ⟨payload, content⟩ := pc
      simp only [hsc] at h
      cases hpl : parseLines ':' true payload with
      | none => simp [hpl] at h
      | some m0 =>
        simp only [hpl, Except.ok.injEq] at h
        subst h
        have e0 := stripPre_sound _ _ _ hd
        have e1 : afterOpen = payload ++ dashDelim ++ content := by
          unfold scanClose at hsc
          exact scanCloseF_sound _ _ _ _ _ hsc
        refine ⟨?_, fun m hm => ?_⟩
        · rw [e0, e1]
          simp [List.append_assoc]
        · refine ⟨dashDelim ++ encodeLines '-' sepDash m ++ dashDelim, ?_⟩
          simp [InterfaceToFrontMatter, mark, dashDelim]
  | none =>
    simp only [hd] at h
    cases hp : stripPre plusDelim raw with
    | some afterOpen =>
      simp only [hp] at h
      cases hsc : scanClose plusDelim afterOpen with
      | none => simp [hsc] at h
      | some pc =>
        obtain ⟨payload, content⟩ := pc
        simp only [hsc] at h
        cases hpl : parseLines '=' false payload with
        | none => simp [hpl] at h
        | some m0 =>
          simp only [hpl, Except.ok.injEq] at h
          subst h
          have e0 := stripPre_sound _ _ _ hp
          have e1 : afterOpen = payload ++ plusDelim ++ content := by
            unfold scanClose at hsc
            exact scanCloseF_sound _ _ _ _ _ hsc
          refine ⟨?_, fun m hm => ?_⟩
          · rw [e0, e1]
            simp [List.append_assoc]
          · refine ⟨plusDelim ++ encodeLines '+' sepPlus m ++ plusDelim, ?_⟩
            simp [InterfaceToFrontMatter, mark, plusDelim]
    | none =>
      simp only [hp] at h
      cases raw with
      | nil =>
        simp only [Except.ok.injEq] at h
        subst h
        exact ⟨rfl, fun m hm => nomatch hm⟩
      | cons c rest =>
        simp only [] at h
        by_cases hbr : c = braceO
        · rw [if_pos hbr] at h
          subst hbr
          cases hpb : parseBrace (braceO :: rest) with
          | none => simp [hpb] at h
          | some mr =>
            obtain ⟨m0, rest'⟩ := mr
            simp only [hpb] at h
            obtain ⟨pre, hpre⟩ := parseBrace_split _ _ _ hpb
            have hpre' : rest = pre ++ rest' := by
              simpa using hpre
            cases rest' with
            | nil =>
              simp only [Except.ok.injEq] at h
              subst h
              refine ⟨?_, fun m hm => ?_⟩
              · simp
              · refine ⟨encodeBraceObj m ++ ['\n'], ?_⟩
                simp [mark, InterfaceToFrontMatter, braceO]
            | cons c2 content =>
              simp only [] at h
              by_cases hnl : c2 = '\n'
              · rw [if_pos hnl] at h
                simp only [Except.ok.injEq] at h
                subst h
                subst hnl
                have hraw : braceO :: rest = (braceO :: (pre ++ ['\n'])) ++ content := by
                  rw [hpre']
                  simp
                have hfm : (braceO :: rest).take ((braceO :: rest).length - content.length)
                    = braceO :: (pre ++ ['\n']) := by
                  rw [hraw]
                  exact take_append_sub _ _
                refine ⟨?_, fun m hm => ?_⟩
                · simp only [hfm]
                  exact hraw
                · refine ⟨encodeBraceObj m ++ ['\n'], ?_⟩
                  rw [hfm]
                  simp [mark, InterfaceToFrontMatter, braceO]
              · rw [if_neg hnl] at h
                simp only [Except.ok.injEq] at h
                subst h
                have hraw : braceO :: rest = (braceO :: pre) ++ (c2 :: content) := by
                  rw [hpre']
                  rfl
                have hfm : (braceO :: rest).take
                      ((braceO :: rest).length - (c2 :: content).length)
                    = braceO :: pre := by
                  rw [hraw]
                  exact take_append_sub _ _
                refine ⟨?_, fun m hm => ?_⟩
                · simp only [hfm]
                  exact hraw
                · refine ⟨encodeBraceObj m ++ ['\n'], ?_⟩
                  rw [hfm]
                  simp [mark, InterfaceToFrontMatter, braceO]
        · rw [if_neg hbr] at h
          simp only [Except.ok.injEq] at h
          subst h
          exact ⟨rfl, fun m hm => nomatch hm⟩

/- Claims about the codec and the load/save pair. -/

/-- C2 counterexample: a document that starts with plain text splits
with no front matter and the whole input as content — a recoverable
outcome — yet LoadPage turns the absent metadata into a failure, so the
caller receives no page. -/
theorem noFrontMatter_fatal_cex :
    loadDocument "hello".data = .ok ⟨[], none, "hello".data⟩ ∧
    LoadPage "p" "hello".data = none :=
  ⟨rfl, rfl⟩

/-- C2 amended: for every input whose first byte is not a dash, a plus
sign or an opening brace (and for the empty input) the split succeeds
with absent metadata and content equal to the entire input, but LoadPage
rejects the absent metadata, so the caller gets an error instead of a
metadata-less page; the edit and save handlers recover only by building
a fresh empty page themselves. -/
theorem noFrontMatter_passthrough_amended (raw : List Char)
    (h : raw = [] ∨ ∃ c cs, raw = c :: cs ∧ c ≠ '-' ∧ c ≠ '+' ∧ c ≠ braceO) :
    loadDocument raw = .ok ⟨[], none, raw⟩ ∧ ∀ path, LoadPage path raw = none := by
  rcases h with rfl | ⟨c, cs, rfl, h1, h2, h3⟩
  · exact ⟨rfl, fun path => rfl⟩
  · have hd : stripPre dashDelim (c :: cs) = none := by
      simp [dashDelim, stripPre, h1]
    have hp : stripPre plusDelim (c :: cs) = none := by
      simp [plusDelim, stripPre, h2]
    have hload : loadDocument (c :: cs) = .ok ⟨[], none, c :: cs⟩ := by
      simp only [loadDocument]
      simp [hd, hp, h3]
    refine ⟨hload, fun path => ?_⟩
    unfold LoadPage
    simp [hload]

theorem noFrontMatter_passthrough_amended_witness :
    loadDocument "x".data = .ok ⟨[], none, "x".data⟩ ∧
    ∀ path, LoadPage path "x".data = none :=
  noFrontMatter_passthrough_amended "x".data
    (Or.inr ⟨'x', [], rfl, by decide, by decide, by decide⟩)

/-- C7: the mark function returns the first front-matter byte and the
plus sign for empty front matter, and the Mark of a loaded page is
exactly this function of the load's raw front-matter bytes. -/
theorem mark_from_first_byte :
    (∀ c cs, mark (c :: cs) = c) ∧ mark [] = '+' ∧
    (∀ path raw p, LoadPage path raw = some p →
      ∃ pg, loadDocument raw = .ok pg ∧ p.Mark = mark pg.fm) := by
  refine ⟨fun c cs => rfl, rfl, fun path raw p h => ?_⟩
  unfold LoadPage at h
  cases hld : loadDocument raw with
  | error e => rw [hld] at h; simp at h
  | ok pg =>
    rw [hld] at h
    simp only [] at h
    cases hm : pg.meta with
    | none => simp [hm] at h
    | some m =>
      simp only [hm, Option.some.injEq] at h
      subst h
      exact ⟨pg, rfl, rfl⟩

theorem mark_from_first_byte_witness :
    mark ('-' :: []) = '-' ∧ mark [] = '+' ∧
    ∃ pg, loadDocument "+++\n+++\n".data = .ok pg ∧
      (Page.mk "p" [] '+' []).Mark = mark pg.fm :=
  ⟨mark_from_first_byte.1 '-' [], mark_from_first_byte.2.1,
   mark_from_first_byte.2.2 "p" "+++\n+++\n".data ⟨"p", [], '+', []⟩ rfl⟩

/-- C6: the content bytes are passed through untouched: the Body of a
loaded page is exactly the content range of the input (the input being
the front-matter bytes followed by it), and Save writes exactly the
re-encoded front matter followed by those Body bytes. -/
theorem content_immutability (path : String) (raw : List Char) (p : Page)
    (h : LoadPage path raw = some p) :
    (∃ pg, loadDocument raw = .ok pg ∧ p.Body = pg.content ∧ raw = pg.fm ++ pg.content) ∧
    ∀ out, Save p = some out →
      ∃ enc, InterfaceToFrontMatter p.FrontMatter p.Mark = some enc ∧
        out = enc ++ p.Body := by
  unfold LoadPage at h
  cases hld : loadDocument raw with
  | error e => rw [hld] at h; simp at h
  | ok pg =>
    rw [hld] at h
    simp only [] at h
    cases hm : pg.meta with
    | none => simp [hm] at h
    | some m =>
      simp only [hm, Option.some.injEq] at h
      subst h
      have hs := loadDocument_ok_split raw pg hld
      refine ⟨⟨pg, rfl, rfl, hs.1⟩, fun out hout => ?_⟩
      unfold Save at hout
      simp only [] at hout
      cases hi : InterfaceToFrontMatter m (mark pg.fm) with
      | none => rw [hi] at hout; simp at hout
      | some enc =>
        rw [hi] at hout
        simp only [Option.some.injEq] at hout
        exact ⟨enc, rfl, hout.symm⟩

theorem content_immutability_witness :
    (∃ pg, loadDocument "+++\nk = \"v\"\n+++\nbody".data = .ok pg ∧
      (Page.mk "p" [("k", GoValue.str "v")] '+' "body".data).Body = pg.content ∧
      "+++\nk = \"v\"\n+++\nbody".data = pg.fm ++ pg.content) ∧
    ∀ out, Save (Page.mk "p" [("k", GoValue.str "v")] '+' "body".data) = some out →
      ∃ enc, InterfaceToFrontMatter
          (Page.mk "p" [("k", GoValue.str "v")] '+' "body".data).FrontMatter
          (Page.mk "p" [("k", GoValue.str "v")] '+' "body".data).Mark = some enc ∧
        out = enc ++ (Page.mk "p" [("k", GoValue.str "v")] '+' "body".data).Body :=
  content_immutability "p" "+++\nk = \"v\"\n+++\nbody".data
    ⟨"p", [("k", GoValue.str "v")], '+', "body".data⟩ rfl

/-- The Brace document of the C1 analysis whose object has no trailing
line break. -/
def braceDocBare : List Char :=
  braceO :: ("\"a\": \"b\"".data ++ [braceC])

/-- The same Brace object with a line break and content after it. -/
def braceDocNl : List Char :=
  braceO :: ("\"a\": \"b\"".data ++ (braceC :: '\n' :: "rest".data))

/-- C1 counterexample: saving a loaded document is not byte-for-byte
in general.  A Brace document whose object is not followed by a line
break loads successfully but gains one on save; and a Dash document
with a decodable unquoted scalar loads successfully but is rewritten
into the canonical quoted form on save. -/
theorem load_save_not_byte_identical_cex :
    (LoadPage "a" braceDocBare = some ⟨"a", [("a", .str "b")], braceO, []⟩ ∧
      Save ⟨"a", [("a", .str "b")], braceO, []⟩ = some (braceDocBare ++ ['\n']) ∧
      braceDocBare ++ ['\n'] ≠ braceDocBare) ∧
    (LoadPage "b" "---\ntitle: hi\n---\n".data
        = some ⟨"b", [("title", .str "hi")], '-', []⟩ ∧
      Save ⟨"b", [("title", .str "hi")], '-', []⟩
        = some "---\ntitle: \"hi\"\n---\n".data ∧
      ("---\ntitle: \"hi\"\n---\n".data : List Char) ≠ "---\ntitle: hi\n---\n".data) :=
  ⟨⟨rfl, rfl, by decide⟩, ⟨rfl, rfl, by decide⟩⟩

/-- C1 amended: every successful load splits the document into its
front-matter bytes and the verbatim content, and Save always succeeds,
writing the canonical re-encoding of the decoded mapping in the load's
own mark followed by that content; the round trip is byte-for-byte
exactly when the original front-matter bytes coincide with the
canonical re-encoding (which the decoder does not require: unquoted or
re-spaced payloads and a Brace object without a trailing line break
load fine but re-encode differently). -/
theorem load_save_roundtrip_amended (path : String) (raw : List Char) (p : Page)
    (h : LoadPage path raw = some p) :
    ∃ pg enc, loadDocument raw = .ok pg ∧ raw = pg.fm ++ pg.content ∧
      p.Body = pg.content ∧
      InterfaceToFrontMatter p.FrontMatter p.Mark = some enc ∧
      Save p = some (enc ++ pg.content) ∧
      (Save p = some raw ↔ enc = pg.fm) := by
  unfold LoadPage at h
  cases hld : loadDocument raw with
  | error e => rw [hld] at h; simp at h
  | ok pg =>
    rw [hld] at h
    simp only [] at h
    cases hm : pg.meta with
    | none => simp [hm] at h
    | some m =>
      simp only [hm, Option.some.injEq] at h
      subst h
      obtain ⟨hsplit, hmk⟩ := loadDocument_ok_split raw pg hld
      obtain ⟨enc, henc⟩ := hmk m hm
      have hsave : Save ⟨path, m, mark pg.fm, pg.content⟩ = some (enc ++ pg.content) := by
        simp [Save, henc]
      refine ⟨pg, enc, rfl, hsplit, rfl, henc, hsave, ?_, ?_⟩
      · intro hs
        rw [hsave] at hs
        have heq : enc ++ pg.content = pg.fm ++ pg.content := by
          rw [Option.some.inj hs, hsplit]
        have hlen : enc.length = pg.fm.length := by
          have := congrArg List.length heq
          simp only [List.length_append] at this
          omega
        exact (List.append_inj heq hlen).1
      · intro he
        rw [hsave, he, hsplit]

/-- C1 witness: a canonical Brace document — object followed by a line
break, canonical spacing — whose front-matter bytes equal their
re-encoding, so the saved bytes equal the original document exactly. -/
theorem load_save_roundtrip_amended_witness :
    (∃ pg enc, loadDocument braceDocNl = .ok pg ∧ braceDocNl = pg.fm ++ pg.content ∧
      (Page.mk "p" [("a", GoValue.str "b")] braceO "rest".data).Body = pg.content ∧
      InterfaceToFrontMatter
          (Page.mk "p" [("a", GoValue.str "b")] braceO "rest".data).FrontMatter
          (Page.mk "p" [("a", GoValue.str "b")] braceO "rest".data).Mark = some enc ∧
      Save (Page.mk "p" [("a", GoValue.str "b")] braceO "rest".data)
        = some (enc ++ pg.content) ∧
      (Save (Page.mk "p" [("a", GoValue.str "b")] braceO "rest".data) = some braceDocNl ↔
        enc = pg.fm)) ∧
    Save (Page.mk "p" [("a", GoValue.str "b")] braceO "rest".data) = some braceDocNl :=
  ⟨load_save_roundtrip_amended "p" braceDocNl
    ⟨"p", [("a", GoValue.str "b")], braceO, "rest".data⟩ rfl, rfl⟩
